import Mathlib

/-!
Verification of the LDBC SNB CSV-preparation script (`prepare_files.py`).

Python strings are modelled as `List Char` (`Str`); only ASCII case mapping is
modelled, which covers every string the program manipulates (SQL identifiers,
CSV header tokens).  The external `fuzzywuzzy.fuzz.ratio` similarity is
modelled as the Levenshtein/LCS based percentage used by that library:
`round(200 * lcs(a, b) / (len a + len b))` with round-half-to-even, and `0`
when either string is empty.  Fallible Python code (statements that can raise
`IndexError`) is modelled with `Except`/`Option`.
-/

abbrev Str := List Char

/-- ASCII lower-casing of a single character, as Python `str.lower` acts on
the ASCII range. -/
def lowerChar (c : Char) : Char :=
  if h : 65 ≤ c.toNat ∧ c.toNat ≤ 90 then
    Char.ofNatAux (c.toNat + 32) (Or.inl (by omega))
  else c

/-- Python `str.lower` (ASCII fragment). -/
def pyLower (s : Str) : Str := s.map lowerChar

/-- ASCII whitespace, as stripped by Python `str.strip`. -/
def isSpaceChar (c : Char) : Bool :=
  c.toNat = 32 || (9 ≤ c.toNat && c.toNat ≤ 13)

/-- Python `str.strip`. -/
def pyStrip (s : Str) : Str :=
  ((s.dropWhile isSpaceChar).reverse.dropWhile isSpaceChar).reverse

/-- A regex `\w` word character (ASCII fragment). -/
def isWordChar (c : Char) : Bool :=
  (97 ≤ c.toNat && c.toNat ≤ 122) || (65 ≤ c.toNat && c.toNat ≤ 90) ||
    (48 ≤ c.toNat && c.toNat ≤ 57) || c.toNat = 95

/-- Python `str.split(sep)` for a one-character separator: the result always
has at least one (possibly empty) piece. -/
def splitChar (sep : Char) : Str → List Str
  | [] => [[]]
  | c :: cs =>
    if c = sep then [] :: splitChar sep cs
    else
      match splitChar sep cs with
      | t :: ts => (c :: t) :: ts
      | [] => [[c]]

/-- `List.isPrefixOf`, spelled out so that all lemmas are self-contained. -/
def pfxB : Str → Str → Bool
  | [], _ => true
  | _ :: _, [] => false
  | a :: as, b :: bs => a = b && pfxB as bs

/-- Python substring containment `needle in hay`. -/
def isSub (needle : Str) : Str → Bool
  | [] => pfxB needle []
  | c :: t => pfxB needle (c :: t) || isSub needle t

/-- The first whitespace-delimited token of a line, i.e. Python
`line.split()[0]`; `none` models the `IndexError` on an all-whitespace line. -/
def firstToken (s : Str) : Option Str :=
  match s.dropWhile isSpaceChar with
  | [] => none
  | c :: t => some ((c :: t).takeWhile (fun d => !isSpaceChar d))

theorem pfxB_length_le : ∀ {a b : Str}, pfxB a b = true → a.length ≤ b.length
  | [], _, _ => Nat.zero_le _
  | _ :: _, [] , h => by simp [pfxB] at h
  | a :: as, b :: bs, h => by
    simp only [pfxB, Bool.and_eq_true, decide_eq_true_eq] at h
    simpa using pfxB_length_le h.2

/-- Fuelled worker for `pyReplace`; every step consumes at least one
character, so fuel `s.length` is always sufficient. -/
def pyReplaceF (old new : Str) : Nat → Str → Str
  | 0, s => s
  | _ + 1, [] => []
  | fuel + 1, c :: cs =>
    if old ≠ [] ∧ pfxB old (c :: cs) = true then
      new ++ pyReplaceF old new fuel ((c :: cs).drop old.length)
    else
      c :: pyReplaceF old new fuel cs

/-- Python `str.replace(old, new)`: replace every non-overlapping occurrence,
scanning left to right.  (Only used with a non-empty `old`; for `old = []`
we return the string unchanged.) -/
def pyReplace (s old new : Str) : Str := pyReplaceF old new s.length s

/-- Worker for `dedupF`, keeping the set of already-seen elements. -/
def dedupAux (seen : List Str) : List Str → List Str
  | [] => []
  | x :: xs => if x ∈ seen then dedupAux seen xs else x :: dedupAux (x :: seen) xs

/-- First-occurrence deduplication; models the contents of a Python set
literal.  (Python set iteration order is hash-dependent, but every use in
this development is order-insensitive: the candidate lists built from it are
fully sorted before use.) -/
def dedupF (l : List Str) : List Str := dedupAux [] l

/-- Code-point comparison of strings, as Python `<` on `str`. -/
def strLtB : Str → Str → Bool
  | [], [] => false
  | [], _ :: _ => true
  | _ :: _, [] => false
  | a :: as, b :: bs =>
    if a.toNat < b.toNat then true
    else if b.toNat < a.toNat then false
    else strLtB as bs

/-- Python `<` on `(int, str)` tuples (lexicographic). -/
def pairLtB (p q : Nat × Str) : Bool :=
  if p.1 < q.1 then true
  else if q.1 < p.1 then false
  else strLtB p.2 q.2

/-- Stable descending insertion used to model Python
`sorted(xs, reverse=True)`: an element is inserted after every strictly
greater element, so equal elements keep their original relative order. -/
def insDesc (lt : α → α → Bool) (x : α) : List α → List α
  | [] => [x]
  | y :: ys => if lt x y then y :: insDesc lt x ys else x :: y :: ys

/-- Python `sorted(xs, reverse=True)` with strict-less-than test `lt`. -/
def sortDesc (lt : α → α → Bool) : List α → List α
  | [] => []
  | x :: xs => insDesc lt x (sortDesc lt xs)

/-- Stable ascending insertion, modelling Python `sorted(xs)`. -/
def insAsc (lt : α → α → Bool) (x : α) : List α → List α
  | [] => [x]
  | y :: ys => if lt y x then y :: insAsc lt x ys else x :: y :: ys

/-- Python `sorted(xs)` with strict-less-than test `lt`. -/
def sortAsc (lt : α → α → Bool) : List α → List α
  | [] => []
  | x :: xs => insAsc lt x (sortAsc lt xs)

/-- One row-update step of the longest-common-subsequence dynamic program:
`prev` is the tail of the previous row, `diag` and `left` the values just
above-left and left of the cell being produced. -/
def lcsNext (ca : Char) : List Char → List Nat → Nat → Nat → List Nat
  | [], _, _, _ => []
  | cb :: bs, prev, diag, left =>
    let up := prev.headD 0
    let cur := if ca = cb then diag + 1 else max left up
    cur :: lcsNext ca bs prev.tail up cur

/-- Length of a longest common subsequence, by the standard row-by-row
dynamic program. -/
def llcs (a b : List Char) : Nat :=
  (a.foldl (fun prev ca => lcsNext ca b prev 0 0) (List.replicate b.length 0)).getLastD 0

/-- Round-half-to-even of the rational `num / den`, as Python `round`. -/
def roundHE (num den : Nat) : Nat :=
  let q := num / den
  let r := num % den
  if 2 * r < den then q
  else if den < 2 * r then q + 1
  else if q % 2 = 0 then q else q + 1

/-- Model of `fuzzywuzzy.fuzz.ratio`: the similarity percentage
`round(200 * lcs / (len a + len b))`, and `0` when either side is empty. -/
def fuzz_ratio (a b : Str) : Nat :=
  if a = [] ∨ b = [] then 0
  else roundHE (200 * llcs a b) (a.length + b.length)

/-! ## String constants appearing in `prepare_files.py` -/

def cId : Str := (r"id").data

/-- The fixed hint-rewrite table of `update_header` (source order). -/
def hintRewrites : List (Str × Str) :=
  [((r"post").data, (r"message").data),
   ((r"comment").data, (r"message").data),
   ((r"parentpostid").data, (r"replyof").data),
   ((r"parentcommentid").data, (r"replyof").data),
   ((r"university").data, (r"organisation").data),
   ((r"company").data, (r"organisation").data),
   ((r"locationplace").data, (r"place").data),
   ((r"locationcity").data, (r"place").data),
   ((r"containerforum").data, (r"forum").data),
   ((r"partofplace").data, (r"containerplace").data),
   ((r"creationdate").data, (r"joindate").data)]

/-- The hint set built for one prefixed title: the title itself plus each
lexical rewrite of its lowercased form.  (Python builds a `set`; its contents
are modelled by first-occurrence deduplication, and no result below depends
on the iteration order.) -/
def hintVariants (t : Str) : List Str :=
  dedupF (t :: hintRewrites.map (fun pr => pyReplace (pyLower t) pr.1 pr.2))

/-- The candidate `(score, column)` pairs collected for one prefixed title:
for every hint variant and every schema column, the pair is appended when the
similarity exceeds 70 or when the lowercased title is in containment relation
with ANY schema column (the generator variable in the Python `any(...)`
shadows the loop variable, so containment is tested against the whole column
list, not the current column). -/
def titleMatches (t : Str) (cols : List Str) : List (Nat × Str) :=
  (hintVariants t).flatMap (fun h =>
    cols.filterMap (fun c =>
      let r := fuzz_ratio h c
      if 70 < r ∨ cols.any (fun c2 =>
          isSub (pyLower t) (pyLower c2) || isSub (pyLower c2) (pyLower t))
      then some (r, c) else none))

/-- Python-dict insertion `d[k] = v`: replace in place if the key exists,
else append. -/
def insertOrReplace (l : List (Str × α)) (k : Str) (v : α) : List (Str × α) :=
  match l with
  | [] => [(k, v)]
  | (k0, v0) :: rest =>
    if k0 = k then (k, v) :: rest else (k0, v0) :: insertOrReplace rest k v

/-- Python-dict lookup (keys produced in this file are unique). -/
def lookupA (l : List (Str × α)) (k : Str) : Option α :=
  match l with
  | [] => none
  | (k0, v0) :: rest => if k0 = k then some v0 else lookupA rest k

/-- Worker for `best_matches`, with the dictionary built so far. -/
def bmAux (cols : List Str) :
    List Str → List (Str × List (Nat × Str)) → List (Str × List (Nat × Str))
  | [], acc => acc
  | t :: ts, acc =>
    if titleMatches t cols = [] then bmAux cols ts acc
    else bmAux cols ts (insertOrReplace acc t (sortDesc pairLtB (titleMatches t cols)))

/-- `best_matches`: title → descending-sorted candidate list, keyed in
first-appearance order, titles without candidates omitted. -/
def bestMatches (titles : List Str) (cols : List Str) :
    List (Str × List (Nat × Str)) :=
  bmAux cols titles []

/-- The sort key `x[1][0]` used for `best_guesses` (candidate lists are
non-empty by construction, so the default is never consulted). -/
def keyOf (p : Str × List (Nat × Str)) : Nat × Str := p.2.headD (0, [])

/-- `best_guesses`: titles ranked by their best candidate pair, descending,
capped at the schema's column count. -/
def bestGuesses (bm : List (Str × List (Nat × Str))) (n : Nat) :
    List (Str × List (Nat × Str)) :=
  (sortDesc (fun p q => pairLtB (keyOf p) (keyOf q)) bm).take n

/-- `matches`: title → best candidate column name. -/
def matchesOf (bg : List (Str × List (Nat × Str))) : List (Str × Str) :=
  bg.map (fun p => (p.1, (keyOf p).2))

/-- Python `list.index` (first occurrence; callers in this file only ever
look up present elements, matching the source where `ValueError` cannot
occur). -/
def idxOf (c : Str) : List Str → Nat
  | [] => 0
  | x :: xs => if x = c then 0 else idxOf c xs + 1

/-- The loop filling `cols_indices` and `not_found`: enumerate the prefixed
titles; a title found in `matches` writes its position into the slot of its
schema column (later writes overwrite earlier ones), an unmatched title
appends its original token to `not_found`. -/
def buildIndicesAux (m : List (Str × Str)) (cols : List Str) :
    Nat → List (Str × Str) → List Int × List Str → List Int × List Str
  | _, [], acc => acc
  | idx, (t, init0) :: rest, (indices, nf) =>
    match lookupA m t with
    | none => buildIndicesAux m cols (idx + 1) rest (indices, nf ++ [init0])
    | some c =>
      buildIndicesAux m cols (idx + 1) rest
        (indices.set (idxOf c cols) (Int.ofNat idx), nf)

def buildIndices (m : List (Str × Str)) (cols titles initial : List Str) :
    List Int × List Str :=
  buildIndicesAux m cols 0 (titles.zip initial)
    (List.replicate cols.length (-1), [])

/-- The prefixed titles: split the raw header on `|`, rewrite a literal `id`
token to `{table}id`, and prepend `{table-initials}_`. -/
def prefixedTitles (tableName pfx : Str) (header : Str) : List Str :=
  (splitChar '|' header).map (fun t =>
    pfx ++ '_' :: (if t = cId then tableName ++ cId else t))

/-- First characters of a list of strings; `none` as soon as one is empty. -/
def headsOf : List Str → Option (List Char)
  | [] => some []
  | p :: ps => p.head?.bind (fun c => (headsOf ps).map (fun cs => c :: cs))

/-- `"".join(t[0].lower() for t in table.split("_"))`; `none` models the
`IndexError` raised when an underscore-separated part is empty. -/
def tablePfx (table : Str) : Option Str :=
  (headsOf (splitChar '_' table)).map (fun cs => cs.map lowerChar)

inductive PyErr
  | indexError
deriving DecidableEq

def joinPipe (l : List Str) : Str := List.intercalate [('|' : Char)] l

/-- The body of `update_header` after the schema lookup and the prefix
computation both succeeded. -/
def updateCore (tableName pfx : Str) (tableSchema : List Str) (header : Str) :
    Str × List Int :=
  let raw_titles := prefixedTitles tableName pfx header
  let initial := splitChar '|' header
  let bg := bestGuesses (bestMatches raw_titles tableSchema) tableSchema.length
  let res := buildIndices (matchesOf bg) tableSchema raw_titles initial
  let new_header := joinPipe tableSchema
  if res.2 ≠ [] then (new_header, res.1)
  else if (-1 : Int) ∈ res.1 then (new_header, res.1)
  else if res.1 = sortAsc (fun a b : Int => a < b) res.1 then (new_header, [])
  else (new_header, res.1)

/-- `update_header(table, schema, header)`. -/
def update_header (table : Str) (schema : List (Str × List Str))
    (header : Str) : Except PyErr (Str × List Int) :=
  match lookupA schema (pyLower table) with
  | none => .ok (header, [])
  | some tableSchema =>
    match tablePfx table with
    | none => .error .indexError
    | some pfx => .ok (updateCore (pyLower table) pfx tableSchema header)

/-- One step of Python `max` on `(int, str)` tuples: the accumulator is
replaced only by a strictly greater element. -/
def pyMax2 (acc q : Nat × Str) : Nat × Str := if pairLtB acc q then q else acc

/-- `find_closest(value, possible_values)`; `none` models the `ValueError`
that Python `max` raises on an empty sequence. -/
def find_closest (value : Str) (possible : List Str) : Option Str :=
  match possible.map (fun pv => (fuzz_ratio value pv, pv)) with
  | [] => none
  | p :: ps => some ((ps.foldl pyMax2 p).2)

/-- Python sequence indexing `row[i]` (negative indices count from the end);
`none` models `IndexError`. -/
def pyIndex (row : List α) (i : Int) : Option α :=
  if 0 ≤ i then row[i.toNat]?
  else if (-i).toNat ≤ row.length then row[row.length - (-i).toNat]? else none

/-- The per-row column selection of `merge_files`:
`[line[i] if i != -1 else "" for i in cols_indices]`. -/
def selectRow (cols_indices : List Int) (row : List Str) :
    Option (List Str) :=
  match cols_indices with
  | [] => some []
  | i :: is =>
    (if i = -1 then some ([] : Str) else pyIndex row i).bind
      (fun v => (selectRow is row).map (fun t => v :: t))

/-! ## `parse_schema` -/

/-- The line transformation `line.strip().lower()` applied by `parse_schema`
to every line. -/
def procLine (l : Str) : Str := pyLower (pyStrip l)

def cOpenC : Str := (r"/*").data
def cCloseC : Str := (r"*/").data
def cEndTable : Str := (r");").data
def cCreate : Str := (r"create table ").data
def cParenSp : Str := (r" (").data

/-- Try the regex `create table (\w+) \(` at the start of `l`. -/
def tryCreate (l : Str) : Option Str :=
  if pfxB cCreate l then
    let rest := l.drop cCreate.length
    let name := rest.takeWhile isWordChar
    if name ≠ [] ∧ pfxB cParenSp (rest.drop name.length) = true then some name
    else none
  else none

/-- `re.search(r"create table (\w+) \(", line)`: leftmost match wins. -/
def searchCreate : Str → Option Str
  | [] => none
  | c :: cs =>
    match tryCreate (c :: cs) with
    | some n => some n
    | none => searchCreate cs

/-- `table_schema.append(col_name)` seen through the dict that aliases the
current table's column list. -/
def appendColA (l : List (Str × List Str)) (k : Str) (tok : Str) :
    List (Str × List Str) :=
  match l with
  | [] => []
  | (k0, v0) :: rest =>
    if k0 = k then (k0, v0 ++ [tok]) :: rest
    else (k0, v0) :: appendColA rest k tok

/-- The line loop of `parse_schema`, with state
(comment flag, table flag, current table, schema so far). -/
def parseLines : List Str → Bool → Bool → Str → List (Str × List Str) →
    Except PyErr (List (Str × List Str))
  | [], _, _, _, schema => .ok schema
  | l :: ls, inC, inT, cur, schema =>
    let p := procLine l
    if isSub cOpenC p then parseLines ls true inT cur schema
    else if isSub cCloseC p then parseLines ls false inT cur schema
    else if inC then parseLines ls inC inT cur schema
    else if p = cEndTable then parseLines ls inC false cur schema
    else if pfxB cCreate p then
      match searchCreate p with
      | some name => parseLines ls inC true name (insertOrReplace schema name [])
      | none => parseLines ls inC inT cur schema
    else if inT then
      match firstToken p with
      | some tok => parseLines ls inC inT cur (appendColA schema cur tok)
      | none => .error .indexError
    else parseLines ls inC inT cur schema

/-- `parse_schema`, on the list of lines of the SQL file. -/
def parse_schema (lines : List Str) : Except PyErr (List (Str × List Str)) :=
  parseLines lines false false [] []

set_option maxRecDepth 100000

/-- Modelled from the spec (C2's reading of the candidate filter, for
comparison with the code): a `(score, column)` pair is kept iff the score
exceeds 70, or the lowercased *hint variant* is a substring of *that* column
name, or that column name is a substring of the lowercased hint variant. -/
def specKeepCandidate (hint col : Str) : Bool :=
  decide (70 < fuzz_ratio hint col) || isSub (pyLower hint) col ||
    isSub col (pyLower hint)

/-- C1: for table `person` with schema columns
`[p_personid, p_firstname, p_lastname]` and raw header
`id|firstName|lastName`, `update_header` returns the header
`p_personid|p_firstname|p_lastname` together with the empty (no-reorder)
selection plan — one of the two outcomes the claim allows. -/
theorem c1_person_header :
    update_header (r"person").data
      [((r"person").data,
        [(r"p_personid").data, (r"p_firstname").data, (r"p_lastname").data])]
      (r"id|firstName|lastName").data =
      .ok ((r"p_personid|p_firstname|p_lastname").data, []) ∧
    (([] : List Int) = [0, 1, 2] ∨ ([] : List Int) = []) :=
  ⟨rfl, Or.inr rfl⟩

/-- C2 counterexample: for title `t_zzz` over schema columns
`[t_zzz, q]`, the pair `(0, q)` is kept by the code (because the
lowercased title is in containment with the *other* column `t_zzz`), although
the per-column filter stated by the claim rejects it (score `0 ≤ 70` and no
containment between `t_zzz` and `q`). -/
theorem c2_counterexample :
    ((0 : Nat), (r"q").data) ∈
      titleMatches (r"t_zzz").data [(r"t_zzz").data, (r"q").data] ∧
    fuzz_ratio (r"t_zzz").data ((r"q").data) = 0 ∧
    specKeepCandidate (r"t_zzz").data ((r"q").data) = false := by
  refine ⟨?_, rfl, rfl⟩
  decide

/-- C3 counterexample: header `aaaa|aaaa` for table `t` over schema
`[t_aaaa, t_zzzz]`: both title positions 0 and 1 carry the same prefixed
title `t_aaaa`, mapped to schema column 0, yet the plan records index 1 (the
later occurrence) in slot 0 — not 0 as the claim (earliest occurrence)
demands. -/
theorem c3_counterexample :
    prefixedTitles (r"t").data ['t'] (r"aaaa|aaaa").data =
      [(r"t_aaaa").data, (r"t_aaaa").data] ∧
    update_header (r"t").data
      [((r"t").data, [(r"t_aaaa").data, (r"t_zzzz").data])]
      (r"aaaa|aaaa").data = .ok ((r"t_aaaa|t_zzzz").data, [1, -1]) ∧
    idxOf ((r"t_aaaa").data) [(r"t_aaaa").data, (r"t_zzzz").data] = 0 ∧
    ((1 : Int) ≠ (0 : Int)) :=
  ⟨rfl, rfl, rfl, by decide⟩

/-- C4 counterexample: for table `t` with the duplicated schema column list
`[t_a, t_a]` and raw header `a|a`, the prefixed titles equal the schema
columns in order, yet the returned selection plan is `[1, -1]`, not the
empty (no-reorder) plan the claim demands. -/
theorem c4_counterexample :
    prefixedTitles (r"t").data ['t'] (r"a|a").data =
      [(r"t_a").data, (r"t_a").data] ∧
    update_header (r"t").data [((r"t").data, [(r"t_a").data, (r"t_a").data])]
      (r"a|a").data = .ok ((r"t_a|t_a").data, [1, -1]) ∧
    ([1, -1] ≠ ([] : List Int)) :=
  ⟨rfl, rfl, by decide⟩

/-- C5: an unknown table name (no entry for its lowercased form in the
schema) makes `update_header` return the header unchanged with an empty
selection plan, without error. -/
theorem c5_unknown_table (table : Str) (schema : List (Str × List Str))
    (header : Str) (h : lookupA schema (pyLower table) = none) :
    update_header table schema header = .ok (header, []) := by
  unfold update_header
  rw [h]

theorem c5_witness :
    lookupA ([((r"person").data, [(r"p_personid").data])])
        (pyLower (r"zzz").data) = none ∧
    update_header (r"zzz").data [((r"person").data, [(r"p_personid").data])]
      (r"a|b").data = .ok ((r"a|b").data, []) :=
  ⟨rfl, c5_unknown_table _ _ _ rfl⟩

/-- C7 counterexample: table `a__b` is present in the schema, but its name
has an empty underscore-separated part, so the prefix computation
`t[0] for t in table.split("_")` raises `IndexError`: `update_header` does
not degrade gracefully on every input. -/
theorem c7_counterexample :
    update_header (r"a__b").data [((r"a__b").data, [(r"x").data])]
      (r"c").data = .error .indexError :=
  rfl

/-- C8 counterexample: for value `x` and candidates `[a, b]` both scoring 0,
`find_closest` returns `b` — Python `max` on `(score, name)` tuples breaks
ties by the lexicographically greatest name — while the claim demands the
first-occurring candidate `a`. -/
theorem c8_counterexample :
    find_closest (r"x").data [(r"a").data, (r"b").data] = some ((r"b").data) ∧
    fuzz_ratio (r"x").data ((r"a").data) =
      fuzz_ratio (r"x").data ((r"b").data) ∧
    ((r"b").data ≠ (r"a").data) :=
  ⟨rfl, rfl, by decide⟩

/-- C2 (amended): a candidate pair `(s, c)` is kept for a prefixed title `t`
iff it arises from some hint variant `h` with `s = ratio h c`, and either
`s > 70` or the lowercased *title* (not the hint variant) is in substring
containment with *some* schema column (not necessarily `c`): the generator
variable of the Python `any(...)` shadows the column loop variable. -/
theorem c2_kept_candidates (t : Str) (cols : List Str) (s : Nat) (c : Str) :
    (s, c) ∈ titleMatches t cols ↔
      ∃ h ∈ hintVariants t, c ∈ cols ∧ s = fuzz_ratio h c ∧
        (70 < s ∨ cols.any (fun c2 =>
          isSub (pyLower t) (pyLower c2) || isSub (pyLower c2) (pyLower t)) = true) := by
  unfold titleMatches
  simp only [List.mem_flatMap, List.mem_filterMap]
  constructor
  · rintro ⟨h, hh, c', hc', hite⟩
    by_cases hcond : 70 < fuzz_ratio h c' ∨ cols.any (fun c2 =>
        isSub (pyLower t) (pyLower c2) || isSub (pyLower c2) (pyLower t)) = true
    · rw [if_pos hcond] at hite
      have h2 := Option.some.inj hite
      have hs : s = fuzz_ratio h c' := (congrArg Prod.fst h2).symm
      have hcc : c' = c := congrArg Prod.snd h2
      subst hcc
      refine ⟨h, hh, hc', hs, ?_⟩
      rwa [← hs] at hcond
    · rw [if_neg hcond] at hite
      exact absurd hite (by simp)
  · rintro ⟨h, hh, hc, hs, hcond⟩
    refine ⟨h, hh, c, hc, ?_⟩
    subst hs
    rw [if_pos hcond]

theorem headsOf_of_ne_nil :
    ∀ (parts : List Str), (∀ p ∈ parts, p ≠ []) →
      ∃ cs, headsOf parts = some cs
  | [], _ => ⟨[], rfl⟩
  | p :: ps, h => by
    obtain ⟨cs, hcs⟩ := headsOf_of_ne_nil ps (fun q hq => h q (by simp [hq]))
    cases p with
    | nil => exact absurd rfl (h [] (by simp))
    | cons c crest =>
      exact ⟨c :: cs, by simp [headsOf, hcs, List.head?]⟩

theorem tablePfx_some (t : Str) (h : ∀ p ∈ splitChar '_' t, p ≠ []) :
    ∃ pfx, tablePfx t = some pfx := by
  obtain ⟨cs, hcs⟩ := headsOf_of_ne_nil _ h
  exact ⟨cs.map lowerChar, by simp [tablePfx, hcs]⟩

/-- C7 (amended): `update_header` terminates without error for every table
name whose underscore-separated parts are all non-empty, and for every table
name unknown to the schema; the one remaining input class (a known table
name with an empty underscore-separated part) raises `IndexError` in the
prefix computation, see the counterexample. -/
theorem c7_graceful (table : Str) (schema : List (Str × List Str))
    (header : Str)
    (h : (∀ p ∈ splitChar '_' table, p ≠ []) ∨
      lookupA schema (pyLower table) = none) :
    ∃ res, update_header table schema header = .ok res := by
  unfold update_header
  cases hlk : lookupA schema (pyLower table) with
  | none => exact ⟨_, rfl⟩
  | some ts =>
    rcases h with h | h
    · obtain ⟨pfx, hpfx⟩ := tablePfx_some table h
      rw [hpfx]
      exact ⟨_, rfl⟩
    · rw [h] at hlk
      cases hlk

theorem c7_witness :
    (∀ p ∈ splitChar '_' ((r"person_likes").data), p ≠ []) ∧
    ∃ res, update_header (r"person_likes").data
      [((r"person_likes").data, [(r"x").data])] (r"a|b").data = .ok res :=
  ⟨by decide, c7_graceful _ _ _ (Or.inl (by decide))⟩

theorem char_toNat_inj {a b : Char} (h : a.toNat = b.toNat) : a = b :=
  Char.eq_of_val_eq (UInt32.ext h)

theorem strLtB_cons_iff {a b : Char} {as bs : List Char} :
    strLtB (a :: as) (b :: bs) = true ↔
      a.toNat < b.toNat ∨ (a.toNat = b.toNat ∧ strLtB as bs = true) := by
  simp only [strLtB]
  split
  · rename_i g
    simp [g]
  · split
    · rename_i g1 g2
      simp only [Bool.false_eq_true, false_iff]
      rintro (h | ⟨he, _⟩)
      · exact g1 h
      · exact absurd g2 (by omega)
    · rename_i g1 g2
      have he : a.toNat = b.toNat := by omega
      simp [g1, he]

theorem strLtB_irrefl : ∀ (s : Str), strLtB s s = false
  | [] => rfl
  | c :: cs => by
    simp only [strLtB, Nat.lt_irrefl, if_neg (Nat.lt_irrefl _)]
    exact strLtB_irrefl cs

theorem strLtB_trans : ∀ {a b c : Str},
    strLtB a b = true → strLtB b c = true → strLtB a c = true
  | [], [], _, h1, _ => by simp [strLtB] at h1
  | [], _ :: _, [], _, h2 => by simp [strLtB] at h2
  | [], _ :: _, _ :: _, _, _ => rfl
  | _ :: _, [], _, h1, _ => by simp [strLtB] at h1
  | _ :: _, _ :: _, [], _, h2 => by simp [strLtB] at h2
  | x :: xs, y :: ys, z :: zs, h1, h2 => by
    rw [strLtB_cons_iff] at h1 h2 ⊢
    rcases h1 with h1 | ⟨h1e, h1r⟩
    · rcases h2 with h2 | ⟨h2e, h2r⟩
      · exact Or.inl (by omega)
      · exact Or.inl (by omega)
    · rcases h2 with h2 | ⟨h2e, h2r⟩
      · exact Or.inl (by omega)
      · exact Or.inr ⟨by omega, strLtB_trans h1r h2r⟩

theorem strLtB_antisymm : ∀ {a b : Str},
    strLtB a b = false → strLtB b a = false → a = b
  | [], [], _, _ => rfl
  | [], _ :: _, h1, _ => by simp [strLtB] at h1
  | _ :: _, [], _, h2 => by simp [strLtB] at h2
  | x :: xs, y :: ys, h1, h2 => by
    have h1' : ¬ (strLtB (x :: xs) (y :: ys) = true) := by simp [h1]
    have h2' : ¬ (strLtB (y :: ys) (x :: xs) = true) := by simp [h2]
    rw [strLtB_cons_iff] at h1' h2'
    have hxy := not_or.mp h1'
    have hyx := not_or.mp h2'
    have he : x.toNat = y.toNat := by
      have g1 := hxy.1
      have g2 := hyx.1
      omega
    have hx : x = y := char_toNat_inj he
    subst hx
    have r1 : strLtB xs ys = false := by
      cases hr : strLtB xs ys
      · rfl
      · exact absurd ⟨rfl, hr⟩ hxy.2
    have r2 : strLtB ys xs = false := by
      cases hr : strLtB ys xs
      · rfl
      · exact absurd ⟨rfl, hr⟩ hyx.2
    rw [strLtB_antisymm r1 r2]

theorem pairLtB_iff {p q : Nat × Str} :
    pairLtB p q = true ↔ p.1 < q.1 ∨ (p.1 = q.1 ∧ strLtB p.2 q.2 = true) := by
  unfold pairLtB
  split
  · rename_i g
    simp [g]
  · split
    · rename_i g1 g2
      simp only [Bool.false_eq_true, false_iff]
      rintro (h | ⟨he, _⟩)
      · exact g1 h
      · exact absurd g2 (by omega)
    · rename_i g1 g2
      have he : p.1 = q.1 := by omega
      simp [g1, he]

theorem pairLtB_irrefl (p : Nat × Str) : pairLtB p p = false := by
  unfold pairLtB
  rw [if_neg (Nat.lt_irrefl _), if_neg (Nat.lt_irrefl _)]
  exact strLtB_irrefl p.2

theorem pairLtB_trans {p q r : Nat × Str} (h1 : pairLtB p q = true)
    (h2 : pairLtB q r = true) : pairLtB p r = true := by
  rw [pairLtB_iff] at h1 h2 ⊢
  rcases h1 with h1 | ⟨h1e, h1r⟩ <;> rcases h2 with h2 | ⟨h2e, h2r⟩
  · exact Or.inl (by omega)
  · exact Or.inl (by omega)
  · exact Or.inl (by omega)
  · exact Or.inr ⟨by omega, strLtB_trans h1r h2r⟩

theorem pairLtB_antisymm {p q : Nat × Str} (h1 : pairLtB p q = false)
    (h2 : pairLtB q p = false) : p = q := by
  have h1' : ¬ (pairLtB p q = true) := by simp [h1]
  have h2' : ¬ (pairLtB q p = true) := by simp [h2]
  rw [pairLtB_iff] at h1' h2'
  have hpq := not_or.mp h1'
  have hqp := not_or.mp h2'
  have he : p.1 = q.1 := by
    have g1 := hpq.1
    have g2 := hqp.1
    omega
  have r1 : strLtB p.2 q.2 = false := by
    cases hr : strLtB p.2 q.2
    · rfl
    · exact absurd ⟨he, hr⟩ hpq.2
  have r2 : strLtB q.2 p.2 = false := by
    cases hr : strLtB q.2 p.2
    · rfl
    · exact absurd ⟨he.symm, hr⟩ hqp.2
  exact Prod.ext he (strLtB_antisymm r1 r2)

theorem pairLtB_asymm {p q : Nat × Str} (h : pairLtB p q = true) :
    pairLtB q p = false := by
  cases hr : pairLtB q p
  · rfl
  · exact absurd (pairLtB_trans h hr) (by simp [pairLtB_irrefl])

theorem pairLtB_notLt_trans {p q r : Nat × Str} (h1 : pairLtB p q = false)
    (h2 : pairLtB q r = false) : pairLtB p r = false := by
  cases hr : pairLtB p r
  · rfl
  · by_cases hq : pairLtB r q = true
    · exact absurd (pairLtB_trans hr hq) (by simp [h1])
    · have hqr : q = r := pairLtB_antisymm h2 (by simpa using hq)
      subst hqr
      exact absurd hr (by simp [h1])

theorem foldl_pymax : ∀ (ps : List (Nat × Str)) (a0 : Nat × Str),
    (ps.foldl pyMax2 a0) ∈ a0 :: ps ∧
    ∀ q ∈ a0 :: ps, pairLtB (ps.foldl pyMax2 a0) q = false
  | [], a0 => by
    refine ⟨by simp, ?_⟩
    intro q hq
    rw [List.mem_singleton] at hq
    subst hq
    simpa using pairLtB_irrefl q
  | q0 :: rest, a0 => by
    obtain ⟨hmem, hmax⟩ := foldl_pymax rest (pyMax2 a0 q0)
    simp only [List.foldl_cons]
    by_cases hstep : pairLtB a0 q0 = true
    · have hst : pyMax2 a0 q0 = q0 := by rw [pyMax2, if_pos hstep]
      rw [hst] at hmem hmax
      rw [hst]
      refine ⟨List.mem_cons_of_mem a0 hmem, ?_⟩
      intro x hx
      rcases List.mem_cons.mp hx with h | h
      · subst h
        exact pairLtB_notLt_trans (hmax q0 (by simp)) (pairLtB_asymm hstep)
      · exact hmax x h
    · have hst : pyMax2 a0 q0 = a0 := by rw [pyMax2, if_neg hstep]
      rw [hst] at hmem hmax
      rw [hst]
      constructor
      · rcases List.mem_cons.mp hmem with h | h
        · simp [h]
        · simp [List.mem_cons, h]
      · intro x hx
        rcases List.mem_cons.mp hx with h | h
        · subst h
          exact hmax x (by simp)
        · rcases List.mem_cons.mp h with h | h
          · subst h
            exact pairLtB_notLt_trans (hmax a0 (by simp))
              (by simpa using hstep)
          · exact hmax x (by simp [h])

/-- C8 (amended): for a non-empty candidate list, `find_closest` returns a
candidate of maximal similarity score; when several candidates share the
maximal score, the one with the lexicographically greatest string is
returned (Python `max` compares `(score, name)` tuples), not the first
occurrence. -/
theorem c8_best_candidate (value : Str) (l : List Str) (hne : l ≠ []) :
    ∃ c, find_closest value l = some c ∧ c ∈ l ∧
      ∀ d ∈ l,
        pairLtB (fuzz_ratio value c, c) (fuzz_ratio value d, d) = false := by
  cases l with
  | nil => exact absurd rfl hne
  | cons v vs =>
    obtain ⟨hmem, hmax⟩ :=
      foldl_pymax (vs.map (fun pv => (fuzz_ratio value pv, pv)))
        (fuzz_ratio value v, v)
    have hlist :
        (fuzz_ratio value v, v) :: vs.map (fun pv => (fuzz_ratio value pv, pv))
          = (v :: vs).map (fun pv => (fuzz_ratio value pv, pv)) := by simp
    rw [hlist] at hmem hmax
    obtain ⟨c, hcmem, hc⟩ := List.mem_map.mp hmem
    refine ⟨c, ?_, hcmem, ?_⟩
    · show find_closest value (v :: vs) = some c
      unfold find_closest
      simp only [List.map_cons]
      rw [← hc]
    · intro d hd
      have hq := hmax (fuzz_ratio value d, d) (List.mem_map.mpr ⟨d, hd, rfl⟩)
      rwa [← hc] at hq

theorem c8_witness :
    ([(r"a").data, (r"b").data] ≠ ([] : List Str)) ∧
    ∃ c, find_closest (r"x").data [(r"a").data, (r"b").data] = some c ∧
      c ∈ [(r"a").data, (r"b").data] ∧
      ∀ d ∈ [(r"a").data, (r"b").data],
        pairLtB (fuzz_ratio (r"x").data c, c)
          (fuzz_ratio (r"x").data d, d) = false :=
  ⟨by decide, c8_best_candidate _ _ (by decide)⟩

theorem bia_fst_length (m : List (Str × Str)) (cols : List Str) :
    ∀ (pairs : List (Str × Str)) (idx : Nat) (ind : List Int) (nf : List Str),
      ((buildIndicesAux m cols idx pairs (ind, nf)).1).length = ind.length
  | [], _, _, _ => rfl
  | (t, i0) :: rest, idx, ind, nf => by
    simp only [buildIndicesAux]
    cases hlk : lookupA m t with
    | none =>
      exact bia_fst_length m cols rest (idx + 1) ind (nf ++ [i0])
    | some c =>
      rw [bia_fst_length m cols rest (idx + 1) _ nf]
      exact List.length_set ind _ _

theorem bia_fst_entries (m : List (Str × Str)) (cols : List Str) :
    ∀ (pairs : List (Str × Str)) (idx : Nat) (ind : List Int) (nf : List Str),
      ∀ e ∈ (buildIndicesAux m cols idx pairs (ind, nf)).1,
        e ∈ ind ∨ ∃ j, idx ≤ j ∧ j < idx + pairs.length ∧ e = Int.ofNat j
  | [], _, _, _ => by
    intro e he
    exact Or.inl he
  | (t, i0) :: rest, idx, ind, nf => by
    intro e he
    simp only [buildIndicesAux] at he
    cases hlk : lookupA m t with
    | none =>
      rw [hlk] at he
      rcases bia_fst_entries m cols rest (idx + 1) ind (nf ++ [i0]) e he with
        h | ⟨j, hj1, hj2, hj3⟩
      · exact Or.inl h
      · exact Or.inr ⟨j, by omega, by simp only [List.length_cons]; omega, hj3⟩
    | some c =>
      rw [hlk] at he
      rcases bia_fst_entries m cols rest (idx + 1) _ nf e he with
        h | ⟨j, hj1, hj2, hj3⟩
      · rcases List.mem_or_eq_of_mem_set h with h | h
        · exact Or.inl h
        · exact Or.inr ⟨idx, Nat.le_refl idx,
            by simp only [List.length_cons]; omega, h⟩
      · exact Or.inr ⟨j, by omega, by simp only [List.length_cons]; omega, hj3⟩

theorem prefixedTitles_length (tn pfx header : Str) :
    (prefixedTitles tn pfx header).length = (splitChar '|' header).length := by
  simp [prefixedTitles]

theorem updateCore_plan_cases (tableName pfx : Str) (ts : List Str)
    (header : Str) :
    (updateCore tableName pfx ts header).2 = [] ∨
    (updateCore tableName pfx ts header).2 =
      (buildIndices
        (matchesOf (bestGuesses
          (bestMatches (prefixedTitles tableName pfx header) ts) ts.length))
        ts (prefixedTitles tableName pfx header) (splitChar '|' header)).1 := by
  simp only [updateCore]
  split
  · exact Or.inr rfl
  · split
    · exact Or.inr rfl
    · split
      · exact Or.inl rfl
      · exact Or.inr rfl

theorem selectRow_ok : ∀ (plan : List Int) (row : List Str),
    (∀ e ∈ plan, e = -1 ∨ (0 ≤ e ∧ e.toNat < row.length)) →
    ∃ out, selectRow plan row = some out ∧ out.length = plan.length ∧
      ∀ k, k < plan.length → plan[k]? = some (-1) → out[k]? = some []
  | [], row, _ => ⟨[], rfl, rfl, by intro k hk; simp at hk⟩
  | i :: is, row, h => by
    obtain ⟨out, ho, hlen, hneg⟩ :=
      selectRow_ok is row (fun e he => h e (by simp [he]))
    by_cases hi : i = -1
    · subst hi
      refine ⟨[] :: out, by simp [selectRow, ho], by simp [hlen], ?_⟩
      intro k hk hkv
      cases k with
      | zero => simp
      | succ n =>
        simp only [List.getElem?_cons_succ] at hkv ⊢
        exact hneg n (by simp at hk; omega) hkv
    · rcases h i (by simp) with h1 | ⟨h1, h2⟩
      · exact absurd h1 hi
      · have hpy : pyIndex row i = some (row.get ⟨i.toNat, h2⟩) := by
          unfold pyIndex
          rw [if_pos h1]
          simp [List.getElem?_eq_getElem h2]
        refine ⟨row.get ⟨i.toNat, h2⟩ :: out, ?_, by simp [hlen], ?_⟩
        · simp [selectRow, hi, hpy, ho]
        · intro k hk hkv
          cases k with
          | zero =>
            simp only [List.getElem?_cons_zero] at hkv
            exact absurd (Option.some.inj hkv) hi
          | succ n =>
            simp only [List.getElem?_cons_succ] at hkv ⊢
            exact hneg n (by simp at hk; omega) hkv

/-- C6: a non-empty selection plan produced by `update_header`, applied to a
row as long as the raw title list, yields a row as long as the schema column
list, with the empty string at every `-1` position. -/
theorem c6_row_projection (table : Str) (schema : List (Str × List Str))
    (header : Str) (hdr : Str) (plan : List Int) (row : List Str)
    (hu : update_header table schema header = .ok (hdr, plan))
    (hne : plan ≠ [])
    (hrow : row.length = (splitChar '|' header).length) :
    ∃ cols, lookupA schema (pyLower table) = some cols ∧
    ∃ out, selectRow plan row = some out ∧ out.length = cols.length ∧
      ∀ k, k < plan.length → plan[k]? = some (-1) → out[k]? = some [] := by
  unfold update_header at hu
  cases hlk : lookupA schema (pyLower table) with
  | none =>
    rw [hlk] at hu
    have : plan = [] := by
      have h2 := Except.ok.inj hu
      exact (congrArg Prod.snd h2).symm
    exact absurd this hne
  | some cols =>
    rw [hlk] at hu
    cases hpf : tablePfx table with
    | none =>
      rw [hpf] at hu
      cases hu
    | some pfx =>
      rw [hpf] at hu
      have h2 := Except.ok.inj hu
      have hplan : plan = (updateCore (pyLower table) pfx cols header).2 :=
        (congrArg Prod.snd h2).symm
      rcases updateCore_plan_cases (pyLower table) pfx cols header with h0 | h0
      · rw [h0] at hplan
        exact absurd hplan hne
      · rw [h0] at hplan
        refine ⟨cols, rfl, ?_⟩
        have hlen1 : plan.length = cols.length := by
          rw [hplan]
          unfold buildIndices
          rw [bia_fst_length]
          exact List.length_replicate _ _
        have hent : ∀ e ∈ plan, e = -1 ∨ (0 ≤ e ∧ e.toNat < row.length) := by
          intro e he
          rw [hplan] at he
          unfold buildIndices at he
          rcases bia_fst_entries _ _ _ _ _ _ e he with h | ⟨j, _, hj2, hj3⟩
          · exact Or.inl (List.eq_of_mem_replicate h)
          · refine Or.inr ?_
            have hjb : j < (prefixedTitles (pyLower table) pfx header).length := by
              have := List.length_zip (prefixedTitles (pyLower table) pfx header)
                (splitChar '|' header)
              omega
            have hjr : j < row.length := by
              rw [hrow, ← prefixedTitles_length (pyLower table) pfx header]
              exact hjb
            subst hj3
            constructor
            · exact Int.ofNat_nonneg j
            · simpa using hjr
        obtain ⟨out, ho, hol, hneg⟩ := selectRow_ok plan row hent
        exact ⟨out, ho, by rw [hol, hlen1], hneg⟩

theorem c6_witness :
    update_header (r"t").data
      [((r"t").data, [(r"t_aaaa").data, (r"t_zzzz").data])]
      (r"aaaa|aaaa").data = .ok ((r"t_aaaa|t_zzzz").data, [1, -1]) ∧
    (([1, -1] : List Int) ≠ []) ∧
    ([['x'], ['y']] : List Str).length =
      (splitChar '|' ((r"aaaa|aaaa").data)).length ∧
    ∃ cols, lookupA [((r"t").data, [(r"t_aaaa").data, (r"t_zzzz").data])]
        (pyLower (r"t").data) = some cols ∧
      ∃ out, selectRow [1, -1] [['x'], ['y']] = some out ∧
        out.length = cols.length ∧
        ∀ k, k < ([1, -1] : List Int).length →
          ([1, -1] : List Int)[k]? = some (-1) → out[k]? = some [] :=
  ⟨rfl, by decide, by decide,
    c6_row_projection ((r"t").data)
      [((r"t").data, [(r"t_aaaa").data, (r"t_zzzz").data])]
      ((r"aaaa|aaaa").data) ((r"t_aaaa|t_zzzz").data) [1, -1]
      [['x'], ['y']] rfl (by decide) (by decide)⟩

theorem bia_no_write (m : List (Str × Str)) (cols : List Str) (k : Nat) :
    ∀ (pairs : List (Str × Str)) (idx : Nat) (ind : List Int) (nf : List Str),
      (∀ p ∈ pairs, ∀ c, lookupA m p.1 = some c → idxOf c cols ≠ k) →
      ((buildIndicesAux m cols idx pairs (ind, nf)).1)[k]? = ind[k]?
  | [], _, _, _, _ => rfl
  | (t, i0) :: rest, idx, ind, nf, h => by
    simp only [buildIndicesAux]
    cases hlk : lookupA m t with
    | none =>
      exact bia_no_write m cols k rest (idx + 1) ind (nf ++ [i0])
        (fun p hp => h p (by simp [hp]))
    | some c =>
      rw [bia_no_write m cols k rest (idx + 1) _ nf
        (fun p hp => h p (by simp [hp]))]
      exact List.getElem?_set_ne (h (t, i0) (by simp) c hlk)

theorem bia_last (m : List (Str × Str)) (cols : List Str) (k : Nat) :
    ∀ (pairs : List (Str × Str)) (idx : Nat) (ind : List Int) (nf : List Str)
      (N : Nat) (hN : N < pairs.length),
      k < ind.length →
      (∃ c, lookupA m (pairs.get ⟨N, hN⟩).1 = some c ∧ idxOf c cols = k) →
      (∀ l (hl : l < pairs.length), N < l →
        ∀ c, lookupA m (pairs.get ⟨l, hl⟩).1 = some c → idxOf c cols ≠ k) →
      ((buildIndicesAux m cols idx pairs (ind, nf)).1)[k]? =
        some (Int.ofNat (idx + N))
  | [], _, _, _, N, hN => by simp at hN
  | (t, i0) :: rest, idx, ind, nf, N, hN => by
    intro hk hw hlast
    cases N with
    | zero =>
      obtain ⟨c, hlkc, hik⟩ := hw
      simp only [List.get] at hlkc
      simp only [buildIndicesAux]
      rw [hlkc]
      have htail : ∀ p ∈ rest, ∀ c', lookupA m p.1 = some c' →
          idxOf c' cols ≠ k := by
        intro p hp c' hc'
        obtain ⟨j, hj⟩ := List.mem_iff_get.mp hp
        have := hlast (j + 1) (by simp only [List.length_cons]; omega)
          (Nat.succ_pos j) c'
        rw [List.get_cons_succ] at this
        rw [hj] at this
        exact this hc'
      rw [bia_no_write m cols k rest (idx + 1) _ nf htail]
      rw [hik]
      simpa using List.getElem?_set_self hk
    | succ n =>
      simp only [buildIndicesAux]
      have harith : idx + 1 + n = idx + (n + 1) := by omega
      cases hlk : lookupA m t with
      | none =>
        have ih := bia_last m cols k rest (idx + 1) ind (nf ++ [i0]) n
          (by simp only [List.length_cons] at hN; omega)
          hk hw
          (fun l hl hgt c' hc' => by
            have := hlast (l + 1) (by simp only [List.length_cons]; omega)
              (by omega) c'
            rw [List.get_cons_succ] at this
            exact this hc')
        rw [harith] at ih
        exact ih
      | some c =>
        have ih := bia_last m cols k rest (idx + 1)
          (ind.set (idxOf c cols) (Int.ofNat idx)) nf n
          (by simp only [List.length_cons] at hN; omega)
          (by simpa using hk) hw
          (fun l hl hgt c' hc' => by
            have := hlast (l + 1) (by simp only [List.length_cons]; omega)
              (by omega) c'
            rw [List.get_cons_succ] at this
            exact this hc')
        rw [harith] at ih
        exact ih

/-- C3 (amended): when several kept raw titles map to the same schema column,
the selection index recorded for that column is the position of the *last*
such title — each later occurrence overwrites the earlier write — not the
first as claimed. -/
theorem c3_last_occurrence (m : List (Str × Str))
    (cols titles initial : List Str)
    (hlen : initial.length = titles.length)
    (k : Nat) (hk : k < cols.length) (N : Nat) (hN : N < titles.length)
    (hw : ∃ c, lookupA m (titles.get ⟨N, hN⟩) = some c ∧ idxOf c cols = k)
    (hlast : ∀ l (hl : l < titles.length), N < l →
      ∀ c, lookupA m (titles.get ⟨l, hl⟩) = some c → idxOf c cols ≠ k) :
    ((buildIndices m cols titles initial).1)[k]? = some (Int.ofNat N) := by
  have hzlen : (titles.zip initial).length = titles.length := by
    rw [List.length_zip, hlen, Nat.min_self]
  have hNz : N < (titles.zip initial).length := by omega
  have hfst : ∀ (l : Nat) (hl : l < (titles.zip initial).length),
      ((titles.zip initial).get ⟨l, hl⟩).1 =
        titles.get ⟨l, by omega⟩ := by
    intro l hl
    simp [List.getElem_zip]
  unfold buildIndices
  have := bia_last m cols k (titles.zip initial) 0
    (List.replicate cols.length (-1)) [] N hNz
    (by simpa using hk)
    (by rw [hfst N hNz]; exact hw)
    (fun l hl hgt c hc => by
      rw [hfst l hl] at hc
      exact hlast l (by omega) hgt c hc)
  simpa using this

theorem c3_witness :
    ((buildIndices [((r"a").data, (r"c").data)]
      [(r"c").data, (r"d").data]
      [(r"a").data, (r"a").data] [(r"a").data, (r"a").data]).1)[0]? =
      some (Int.ofNat 1) :=
  c3_last_occurrence [((r"a").data, (r"c").data)]
    [(r"c").data, (r"d").data]
    [(r"a").data, (r"a").data] [(r"a").data, (r"a").data]
    rfl 0 (by decide) 1 (by decide)
    ⟨(r"c").data, rfl, rfl⟩
    (by
      intro l hl hgt c hc
      simp only [List.length_cons, List.length_nil] at hl
      omega)

theorem lowerChar_toNat (c : Char) :
    (lowerChar c).toNat =
      if 65 ≤ c.toNat ∧ c.toNat ≤ 90 then c.toNat + 32 else c.toNat := by
  unfold lowerChar
  split <;> rfl

theorem lowerChar_lowerChar (c : Char) :
    lowerChar (lowerChar c) = lowerChar c := by
  by_cases hP : 65 ≤ c.toNat ∧ c.toNat ≤ 90
  · have h1 : (lowerChar c).toNat = c.toNat + 32 := by
      rw [lowerChar_toNat, if_pos hP]
    apply char_toNat_inj
    rw [lowerChar_toNat (lowerChar c), if_neg (by rw [h1]; omega)]
  · have h1 : lowerChar c = c := by
      unfold lowerChar
      rw [dif_neg hP]
    rw [h1, h1]

theorem lowerChar_underscore_iff (c : Char) :
    lowerChar c = '_' ↔ c = '_' := by
  constructor
  · intro h
    apply char_toNat_inj
    have h95 : ('_' : Char).toNat = 95 := rfl
    have h2 : (lowerChar c).toNat = 95 := by rw [h, h95]
    rw [lowerChar_toNat] at h2
    rw [h95]
    split at h2 <;> omega
  · intro h
    subst h
    rfl

theorem pyLower_idem (s : Str) : pyLower (pyLower s) = pyLower s := by
  unfold pyLower
  rw [List.map_map]
  apply List.map_congr_left
  intro c _
  exact lowerChar_lowerChar c

theorem splitChar_ne_nil (sep : Char) : ∀ (s : Str), splitChar sep s ≠ []
  | [] => by simp [splitChar]
  | c :: cs => by
    simp only [splitChar]
    split
    · simp
    · split
      · simp
      · simp

theorem splitChar_pyLower : ∀ (t : Str),
    splitChar '_' (pyLower t) = (splitChar '_' t).map pyLower
  | [] => rfl
  | c :: cs => by
    simp only [pyLower, List.map_cons, splitChar]
    by_cases hc : c = '_'
    · subst hc
      rw [if_pos rfl, if_pos (by rfl)]
      simp only [List.map_cons]
      have ih := splitChar_pyLower cs
      simp only [pyLower] at ih
      rw [ih]
      rfl
    · rw [if_neg hc, if_neg (fun h => hc ((lowerChar_underscore_iff c).mp h))]
      have ih := splitChar_pyLower cs
      simp only [pyLower] at ih
      rw [ih]
      cases hsp : splitChar '_' cs with
      | nil => exact absurd hsp (splitChar_ne_nil '_' cs)
      | cons u us => simp [pyLower]

theorem headsOf_map_pyLower : ∀ (parts : List Str),
    headsOf (parts.map pyLower) =
      (headsOf parts).map (fun cs => cs.map lowerChar)
  | [] => rfl
  | p :: ps => by
    cases p with
    | nil => rfl
    | cons c cr =>
      have h1 : (pyLower (c :: cr)).head? = some (lowerChar c) := rfl
      have h2 : (c :: cr).head? = some c := rfl
      simp only [List.map_cons, headsOf, h1, h2]
      rw [headsOf_map_pyLower ps]
      cases headsOf ps with
      | none => rfl
      | some cs => rfl

theorem tablePfx_lower (t : Str) : tablePfx (pyLower t) = tablePfx t := by
  unfold tablePfx
  rw [splitChar_pyLower, headsOf_map_pyLower]
  cases headsOf (splitChar '_' t) with
  | none => rfl
  | some cs =>
    have hmm2 : (cs.map lowerChar).map lowerChar = cs.map lowerChar := by
      rw [List.map_map]
      apply List.map_congr_left
      intro c _
      exact lowerChar_lowerChar c
    show some ((cs.map lowerChar).map lowerChar) = some (cs.map lowerChar)
    rw [hmm2]

/-- C10: `update_header` is invariant under the casing of the table-name
argument: the schema lookup, the id-token rewrite, and the column prefix are
all computed from the lowercased table name. -/
theorem c10_case_invariance (table : Str) (schema : List (Str × List Str))
    (header : Str) :
    update_header (pyLower table) schema header =
      update_header table schema header := by
  unfold update_header
  rw [pyLower_idem, tablePfx_lower]

theorem insertOrReplace_append {α : Type} (acc : List (Str × α)) (k : Str)
    (v : α) (h : ∀ p ∈ acc, p.1 ≠ k) :
    insertOrReplace acc k v = acc ++ [(k, v)] := by
  induction acc with
  | nil => rfl
  | cons p rest ih =>
    obtain ⟨k0, v0⟩ := p
    simp only [insertOrReplace]
    rw [if_neg (h (k0, v0) (by simp))]
    rw [ih (fun q hq => h q (by simp [hq]))]
    simp

theorem mem_insertOrReplace {α : Type} {acc : List (Str × α)} {k : Str}
    {v : α} {p : Str × α} (h : p ∈ insertOrReplace acc k v) :
    p ∈ acc ∨ p = (k, v) := by
  induction acc with
  | nil =>
    simp only [insertOrReplace, List.mem_singleton] at h
    exact Or.inr h
  | cons q rest ih =>
    obtain ⟨k0, v0⟩ := q
    simp only [insertOrReplace] at h
    split at h
    · rcases List.mem_cons.mp h with h | h
      · exact Or.inr h
      · exact Or.inl (List.mem_cons_of_mem _ h)
    · rcases List.mem_cons.mp h with h | h
      · exact Or.inl (by simp [h])
      · rcases ih h with h | h
        · exact Or.inl (List.mem_cons_of_mem _ h)
        · exact Or.inr h

theorem bmAux_eq (cols : List Str) : ∀ (ts : List Str)
    (acc : List (Str × List (Nat × Str))),
    ts.Nodup → (∀ t ∈ ts, ∀ p ∈ acc, p.1 ≠ t) →
    (∀ t ∈ ts, titleMatches t cols ≠ []) →
    bmAux cols ts acc =
      acc ++ ts.map (fun t => (t, sortDesc pairLtB (titleMatches t cols)))
  | [], acc, _, _, _ => by simp [bmAux]
  | t :: ts, acc, hnd, hk, hne => by
    simp only [bmAux]
    rw [if_neg (hne t (by simp))]
    have hk2 : ∀ t' ∈ ts, ∀ p ∈ insertOrReplace acc t
        (sortDesc pairLtB (titleMatches t cols)), p.1 ≠ t' := by
      intro t' ht' p hp
      rcases mem_insertOrReplace hp with h | h
      · exact hk t' (by simp [ht']) p h
      · intro he
        rw [h] at he
        have ht : t = t' := he
        rw [ht] at hnd
        exact (List.nodup_cons.mp hnd).1 ht'
    rw [bmAux_eq cols ts _ (List.nodup_cons.mp hnd).2 hk2
      (fun t' ht' => hne t' (by simp [ht']))]
    rw [insertOrReplace_append acc t _ (fun p hp he => hk t (by simp) p hp he)]
    simp

theorem length_insDesc {α : Type} (lt : α → α → Bool) (x : α) :
    ∀ (l : List α), (insDesc lt x l).length = l.length + 1
  | [] => rfl
  | y :: ys => by
    simp only [insDesc]
    split
    · simp [length_insDesc lt x ys]
    · simp

theorem length_sortDesc {α : Type} (lt : α → α → Bool) :
    ∀ (l : List α), (sortDesc lt l).length = l.length
  | [] => rfl
  | x :: xs => by
    simp only [sortDesc]
    rw [length_insDesc, length_sortDesc lt xs]
    rfl

theorem perm_insDesc {α : Type} (lt : α → α → Bool) (x : α) :
    ∀ (l : List α), List.Perm (insDesc lt x l) (x :: l)
  | [] => List.Perm.refl _
  | y :: ys => by
    simp only [insDesc]
    split
    · exact ((perm_insDesc lt x ys).cons y).trans (List.Perm.swap x y ys)
    · exact List.Perm.refl _

theorem perm_sortDesc {α : Type} (lt : α → α → Bool) :
    ∀ (l : List α), List.Perm (sortDesc lt l) l
  | [] => List.Perm.refl _
  | x :: xs => by
    simp only [sortDesc]
    exact (perm_insDesc lt x (sortDesc lt xs)).trans
      ((perm_sortDesc lt xs).cons x)

theorem lookupA_eq_of_mem_nodup {α : Type} :
    ∀ {l : List (Str × α)} {k : Str} {v : α},
    (k, v) ∈ l → (l.map Prod.fst).Nodup → lookupA l k = some v
  | [], k, v, h, _ => by simp at h
  | (k0, v0) :: rest, k, v, h, hnd => by
    simp only [lookupA]
    rcases List.mem_cons.mp h with h | h
    · obtain ⟨h1, h2⟩ := Prod.mk.inj h
      rw [if_pos h1.symm]
      rw [h2]
    · by_cases he : k0 = k
      · exfalso
        subst he
        have : k0 ∈ rest.map Prod.fst := List.mem_map.mpr ⟨(k0, v), h, rfl⟩
        simp only [List.map_cons, List.nodup_cons] at hnd
        exact hnd.1 this
      · rw [if_neg he]
        exact lookupA_eq_of_mem_nodup h
          (by simp only [List.map_cons, List.nodup_cons] at hnd; exact hnd.2)

theorem idxOf_get_nodup : ∀ (cols : List Str), cols.Nodup →
    ∀ (i : Nat) (h : i < cols.length), idxOf (cols.get ⟨i, h⟩) cols = i
  | [], _, i, h => by simp at h
  | c :: cs, hnd, 0, h => by simp [idxOf]
  | c :: cs, hnd, i + 1, h => by
    simp only [List.get_cons_succ, idxOf]
    have hmem : cs.get ⟨i, by simpa using h⟩ ∈ cs :=
      List.get_mem cs i (by simpa using h)
    rw [if_neg ?hne]
    · rw [idxOf_get_nodup cs (List.nodup_cons.mp hnd).2 i (by simpa using h)]
    · intro he
      rw [← he] at hmem
      exact (List.nodup_cons.mp hnd).1 hmem

theorem bia_nf (m : List (Str × Str)) (cols : List Str) :
    ∀ (pairs : List (Str × Str)) (idx : Nat) (ind : List Int) (nf : List Str),
      (∀ p ∈ pairs, ∃ c, lookupA m p.1 = some c) →
      (buildIndicesAux m cols idx pairs (ind, nf)).2 = nf
  | [], _, _, _, _ => rfl
  | (t, i0) :: rest, idx, ind, nf, h => by
    simp only [buildIndicesAux]
    obtain ⟨c, hc⟩ := h (t, i0) (by simp)
    have hc' : lookupA m t = some c := hc
    rw [hc']
    exact bia_nf m cols rest (idx + 1) _ nf (fun p hp => h p (by simp [hp]))

theorem insAsc_eq_cons {α : Type} (lt : α → α → Bool) (x : α) :
    ∀ (l : List α), (∀ y ∈ l, lt y x = false) → insAsc lt x l = x :: l
  | [], _ => rfl
  | y :: ys, h => by
    simp only [insAsc]
    rw [if_neg (by rw [h y (by simp)]; simp)]

theorem sortAsc_eq_self {α : Type} (lt : α → α → Bool) :
    ∀ (l : List α), List.Pairwise (fun a b => lt b a = false) l →
      sortAsc lt l = l
  | [], _ => rfl
  | x :: xs, h => by
    obtain ⟨hx, hxs⟩ := List.pairwise_cons.mp h
    simp only [sortAsc]
    rw [sortAsc_eq_self lt xs hxs]
    exact insAsc_eq_cons lt x xs hx

theorem buildIndices_identity (m : List (Str × Str)) (cols initial : List Str)
    (hnd : cols.Nodup)
    (hlen : initial.length = cols.length)
    (hlook : ∀ c ∈ cols, lookupA m c = some c) :
    (buildIndices m cols cols initial).1 =
      (List.range cols.length).map Int.ofNat := by
  have hzlen : (cols.zip initial).length = cols.length := by
    rw [List.length_zip, hlen, Nat.min_self]
  have hblen : ((buildIndices m cols cols initial).1).length = cols.length := by
    unfold buildIndices
    rw [bia_fst_length]
    exact List.length_replicate _ _
  apply List.ext_getElem?
  intro p
  by_cases hp : p < cols.length
  · have hfst : ∀ (l : Nat) (hl : l < (cols.zip initial).length),
        ((cols.zip initial).get ⟨l, hl⟩).1 =
          cols.get ⟨l, by omega⟩ := by
      intro l hl
      simp [List.getElem_zip]
    have hlast := bia_last m cols p (cols.zip initial) 0
      (List.replicate cols.length (-1)) [] p (by omega)
      (by simpa using hp)
      (by
        rw [hfst p (by omega)]
        exact ⟨cols.get ⟨p, hp⟩,
          hlook _ (List.get_mem cols p hp),
          idxOf_get_nodup cols hnd p hp⟩)
      (fun l hl hgt c hc => by
        rw [hfst l hl] at hc
        have hcl : c = cols.get ⟨l, by omega⟩ := by
          have := hlook _ (List.get_mem cols l (by omega))
          rw [this] at hc
          exact (Option.some.inj hc).symm
        rw [hcl, idxOf_get_nodup cols hnd l (by omega)]
        omega)
    unfold buildIndices
    rw [hlast]
    rw [List.getElem?_map, List.getElem?_range hp]
    simp
  · rw [List.getElem?_eq_none (by rw [hblen]; omega),
      List.getElem?_eq_none (by simp [List.length_range]; omega)]

/-- C4 (amended): if the prefixed titles already equal the schema columns in
order, the schema columns are pairwise distinct, and every column's
best-scoring candidate over the hint variants is the pair `(100, itself)`
(ruling out duplicated columns and near-identical columns that tie at score
100, which the counterexample shows can break the claim), then
`update_header` returns the canonical pipe-joined header together with the
empty (no-reorder) selection plan. -/
theorem c4_aligned_header (table : Str) (schema : List (Str × List Str))
    (header : Str) (cols : List Str) (pfx : Str)
    (h1 : lookupA schema (pyLower table) = some cols)
    (h2 : tablePfx table = some pfx)
    (h3 : prefixedTitles (pyLower table) pfx header = cols)
    (h4 : cols.Nodup)
    (h5 : ∀ c ∈ cols,
      (sortDesc pairLtB (titleMatches c cols)).headD (0, ([] : Str)) = (100, c)) :
    update_header table schema header = .ok (joinPipe cols, []) := by
  have htm_ne : ∀ c ∈ cols, titleMatches c cols ≠ [] := by
    intro c hc h0
    have h5c := h5 c hc
    rw [h0] at h5c
    simp only [sortDesc, List.headD] at h5c
    exact absurd (congrArg Prod.fst h5c) (by simp)
  have hbm : bestMatches cols cols =
      cols.map (fun t => (t, sortDesc pairLtB (titleMatches t cols))) := by
    unfold bestMatches
    rw [bmAux_eq cols cols [] h4 (by simp) htm_ne]
    simp
  have hsrtlen : (sortDesc (fun p q => pairLtB (keyOf p) (keyOf q))
      (cols.map (fun t =>
        (t, sortDesc pairLtB (titleMatches t cols))))).length =
      cols.length := by
    rw [length_sortDesc, List.length_map]
  have hbg : bestGuesses (bestMatches cols cols) cols.length =
      sortDesc (fun p q => pairLtB (keyOf p) (keyOf q))
        (cols.map (fun t => (t, sortDesc pairLtB (titleMatches t cols)))) := by
    unfold bestGuesses
    rw [hbm, ← hsrtlen, List.take_length]
  have hperm := perm_sortDesc (fun p q => pairLtB (keyOf p) (keyOf q))
    (cols.map (fun t => (t, sortDesc pairLtB (titleMatches t cols))))
  have hmm : ∀ c ∈ cols,
      (c, c) ∈ matchesOf (bestGuesses (bestMatches cols cols) cols.length) := by
    intro c hc
    rw [hbg]
    refine List.mem_map.mpr
      ⟨(c, sortDesc pairLtB (titleMatches c cols)), ?_, ?_⟩
    · exact hperm.mem_iff.mpr (List.mem_map.mpr ⟨c, hc, rfl⟩)
    · show (c, (keyOf (c, sortDesc pairLtB (titleMatches c cols))).2) = (c, c)
      unfold keyOf
      rw [h5 c hc]
  have hkeys : ((matchesOf (bestGuesses (bestMatches cols cols)
      cols.length)).map Prod.fst).Nodup := by
    rw [hbg]
    have hmf : (matchesOf (sortDesc (fun p q => pairLtB (keyOf p) (keyOf q))
        (cols.map (fun t =>
          (t, sortDesc pairLtB (titleMatches t cols)))))).map Prod.fst =
        (sortDesc (fun p q => pairLtB (keyOf p) (keyOf q))
          (cols.map (fun t =>
            (t, sortDesc pairLtB (titleMatches t cols))))).map Prod.fst := by
      unfold matchesOf
      rw [List.map_map]
      exact List.map_congr_left (fun p _ => rfl)
    rw [hmf]
    have hpm := hperm.map Prod.fst
    have hcols : (cols.map (fun t =>
        (t, sortDesc pairLtB (titleMatches t cols)))).map Prod.fst = cols := by
      rw [List.map_map]
      have := List.map_congr_left
        (l := cols)
        (f := Prod.fst ∘ fun t => (t, sortDesc pairLtB (titleMatches t cols)))
        (g := id) (fun a _ => rfl)
      rw [this, List.map_id]
    rw [hcols] at hpm
    exact hpm.nodup_iff.mpr h4
  have hlookm : ∀ c ∈ cols,
      lookupA (matchesOf (bestGuesses (bestMatches cols cols) cols.length)) c
        = some c :=
    fun c hc => lookupA_eq_of_mem_nodup (hmm c hc) hkeys
  have hleninit : (splitChar '|' header).length = cols.length := by
    rw [← h3]
    exact (prefixedTitles_length _ _ _).symm
  have hplan := buildIndices_identity
    (matchesOf (bestGuesses (bestMatches cols cols) cols.length)) cols
    (splitChar '|' header) h4 hleninit hlookm
  have hnfl : (buildIndices
      (matchesOf (bestGuesses (bestMatches cols cols) cols.length)) cols cols
      (splitChar '|' header)).2 = [] := by
    unfold buildIndices
    apply bia_nf
    intro p hp
    obtain ⟨hp1, hp2⟩ := List.of_mem_zip hp
    exact ⟨p.1, hlookm p.1 hp1⟩
  unfold update_header
  rw [h1, h2]
  show Except.ok (updateCore (pyLower table) pfx cols header) =
    Except.ok (joinPipe cols, [])
  congr 1
  simp only [updateCore]
  rw [h3]
  rw [hnfl, hplan]
  rw [if_neg (fun hcon => hcon rfl)]
  rw [if_neg ?memneg]
  case memneg =>
    intro hmemneg
    simp only [List.mem_map] at hmemneg
    obtain ⟨j, _, hj⟩ := hmemneg
    rw [Int.ofNat_eq_coe] at hj
    omega
  rw [if_pos ?srt]
  case srt =>
    refine (sortAsc_eq_self _ _ ?_).symm
    refine (List.pairwise_map).mpr ?_
    refine (List.pairwise_lt_range cols.length).imp ?_
    intro a b hab
    exact decide_eq_false
      (fun hcon => absurd (Int.ofNat_lt.mp hcon) (by omega))


theorem c4_witness :
    lookupA [((r"person").data,
      [(r"p_personid").data, (r"p_firstname").data, (r"p_lastname").data])]
        (pyLower (r"person").data) =
      some [(r"p_personid").data, (r"p_firstname").data,
        (r"p_lastname").data] ∧
    tablePfx (r"person").data = some ['p'] ∧
    prefixedTitles (pyLower (r"person").data) ['p']
        (r"personid|firstname|lastname").data =
      [(r"p_personid").data, (r"p_firstname").data, (r"p_lastname").data] ∧
    ([(r"p_personid").data, (r"p_firstname").data,
      (r"p_lastname").data] : List Str).Nodup ∧
    (∀ c ∈ ([(r"p_personid").data, (r"p_firstname").data,
        (r"p_lastname").data] : List Str),
      (sortDesc pairLtB (titleMatches c
        [(r"p_personid").data, (r"p_firstname").data,
          (r"p_lastname").data])).headD (0, ([] : Str)) = (100, c)) ∧
    update_header (r"person").data
      [((r"person").data,
        [(r"p_personid").data, (r"p_firstname").data, (r"p_lastname").data])]
      (r"personid|firstname|lastname").data =
      .ok (joinPipe [(r"p_personid").data, (r"p_firstname").data,
        (r"p_lastname").data], []) :=
  ⟨rfl, rfl, rfl, by decide, by decide,
    c4_aligned_header _ _ _ _ _ rfl rfl rfl (by decide) (by decide)⟩

/-! ## Well-formed DDL texts for `parse_schema` -/

/-- An interior element of a `create table` block: a column line, or a block
comment. -/
inductive TableItem
  | col (line : Str)
  | comm (body : List Str)

/-- A top-level element of a DDL text: a block comment or a table block. -/
inductive DDLBlock
  | comment (body : List Str)
  | table (name : Str) (items : List TableItem)

def renderItem : TableItem → List Str
  | .col l => [l]
  | .comm body => cOpenC :: (body ++ [cCloseC])

def renderBlock : DDLBlock → List Str
  | .comment body => cOpenC :: (body ++ [cCloseC])
  | .table name items =>
    (cCreate ++ (name ++ cParenSp)) :: (items.flatMap renderItem ++ [cEndTable])

/-- The lines of a DDL text assembled from blocks. -/
def renderDDL (blocks : List DDLBlock) : List Str :=
  blocks.flatMap renderBlock

/-- A comment-body line may not close the comment early. -/
def commentBodyOK (l : Str) : Bool := !(isSub cCloseC (procLine l))

/-- A column line: no comment markers, not the block terminator, not a
`create table` line, and a non-empty first token. -/
def colLineOK (l : Str) : Bool :=
  !(isSub cOpenC (procLine l)) && !(isSub cCloseC (procLine l)) &&
  !(decide (procLine l = cEndTable)) && !(pfxB cCreate (procLine l)) &&
  (firstToken (procLine l)).isSome

/-- A table name: non-empty, made of lowercase regex word characters. -/
def nameOK (name : Str) : Bool :=
  !(name.isEmpty) &&
    name.all (fun c => isWordChar c && decide (lowerChar c = c))

def itemOK : TableItem → Bool
  | .col l => colLineOK l
  | .comm body => body.all commentBodyOK

def blockOK : DDLBlock → Bool
  | .comment body => body.all commentBodyOK
  | .table name items => nameOK name && items.all itemOK

/-- The column contributed by one table item. -/
def itemCols : TableItem → List Str
  | .col l =>
    match firstToken (procLine l) with
    | some tok => [tok]
    | none => []
  | .comm _ => []

/-- The schema entries contributed by one block. -/
def blockTables : DDLBlock → List (Str × List Str)
  | .comment _ => []
  | .table name items => [(name, items.flatMap itemCols)]

/-- The expected parse result of a DDL text. -/
def ddlTables (blocks : List DDLBlock) : List (Str × List Str) :=
  blocks.flatMap blockTables

/-- The number of `create table` blocks of a DDL text. -/
def numTables (blocks : List DDLBlock) : Nat :=
  blocks.countP (fun b => match b with | .table _ _ => true | _ => false)

theorem pfxB_append_self : ∀ (a b : Str), pfxB a (a ++ b) = true
  | [], _ => rfl
  | c :: cs, b => by
    show (decide (c = c) && pfxB cs (cs ++ b)) = true
    simp [pfxB_append_self cs b]

theorem pfxB_refl (a : Str) : pfxB a a = true := by
  have h := pfxB_append_self a []
  rwa [List.append_nil] at h

theorem isSub_head_mem : ∀ {x : Char} {n h : Str},
    isSub (x :: n) h = true → x ∈ h
  | x, n, [], hs => by simp [isSub, pfxB] at hs
  | x, n, c :: t, hs => by
    simp only [isSub, Bool.or_eq_true] at hs
    rcases hs with hs | hs
    · simp only [pfxB, Bool.and_eq_true, decide_eq_true_eq] at hs
      simp [hs.1]
    · exact List.mem_cons_of_mem c (isSub_head_mem hs)

theorem takeWhile_append_stop (p : Char → Bool) :
    ∀ (a : Str) (x : Char) (r : Str), (∀ c ∈ a, p c = true) → p x = false →
      ((a ++ x :: r).takeWhile p) = a
  | [], x, r, _, hx => by simp [List.takeWhile_cons, hx]
  | c :: cs, x, r, h, hx => by
    simp only [List.cons_append, List.takeWhile_cons]
    rw [if_pos (h c (by simp))]
    rw [takeWhile_append_stop p cs x r (fun d hd => h d (by simp [hd])) hx]

theorem pyStrip_noop (c d : Char) (m : Str) (hc : isSpaceChar c = false)
    (hd : isSpaceChar d = false) :
    pyStrip (c :: (m ++ [d])) = c :: (m ++ [d]) := by
  unfold pyStrip
  rw [List.dropWhile_cons, if_neg (by rw [hc]; simp)]
  rw [show (c :: (m ++ [d])) = ((c :: m) ++ [d]) from rfl]
  rw [List.reverse_append]
  rw [show ([d].reverse ++ (c :: m).reverse) = d :: (c :: m).reverse from rfl]
  rw [List.dropWhile_cons, if_neg (by rw [hd]; simp)]
  rw [List.reverse_cons, List.reverse_reverse]

theorem pyLower_name_eq (name : Str)
    (h : ∀ c ∈ name, isWordChar c = true ∧ lowerChar c = c) :
    pyLower name = name := by
  unfold pyLower
  have h2 := List.map_congr_left (l := name) (f := lowerChar) (g := id)
    (fun c hc => (h c hc).2)
  rw [h2, List.map_id]

theorem nameOK_props {name : Str} (h : nameOK name = true) :
    name ≠ [] ∧ ∀ c ∈ name, isWordChar c = true ∧ lowerChar c = c := by
  unfold nameOK at h
  simp only [Bool.and_eq_true, Bool.not_eq_true', List.all_eq_true,
    Bool.and_eq_true, decide_eq_true_eq] at h
  refine ⟨?_, h.2⟩
  intro he
  rw [he] at h
  simp [List.isEmpty] at h

theorem procLine_create (name : Str)
    (h : ∀ c ∈ name, isWordChar c = true ∧ lowerChar c = c) :
    procLine (cCreate ++ (name ++ cParenSp)) =
      cCreate ++ (name ++ cParenSp) := by
  unfold procLine
  have hshape : cCreate ++ (name ++ cParenSp) =
      'c' :: ((cCreate.tail ++ (name ++ [' '])) ++ ['(']) := by
    rw [show cCreate = 'c' :: cCreate.tail from rfl]
    simp only [List.cons_append, List.append_assoc, List.cons.injEq, true_and]
    rfl
  rw [hshape, pyStrip_noop _ _ _ (by decide) (by decide), ← hshape]
  show (cCreate ++ (name ++ cParenSp)).map lowerChar = _
  rw [List.map_append, List.map_append]
  rw [show cCreate.map lowerChar = cCreate from rfl]
  rw [show cParenSp.map lowerChar = cParenSp from rfl]
  rw [show name.map lowerChar = name from pyLower_name_eq name h]

theorem no_slash_create (name : Str)
    (h : ∀ c ∈ name, isWordChar c = true ∧ lowerChar c = c) :
    isSub cOpenC (cCreate ++ (name ++ cParenSp)) = false := by
  cases hs : isSub cOpenC (cCreate ++ (name ++ cParenSp))
  · rfl
  · exfalso
    have hs' : isSub ('/' :: ['*']) (cCreate ++ (name ++ cParenSp)) = true := hs
    have hmem := isSub_head_mem hs'
    rcases List.mem_append.mp hmem with hm | hm
    · exact absurd hm (by decide)
    · rcases List.mem_append.mp hm with hm | hm
      · exact absurd ((h '/' hm).1) (by decide)
      · exact absurd hm (by decide)

theorem no_star_create (name : Str)
    (h : ∀ c ∈ name, isWordChar c = true ∧ lowerChar c = c) :
    isSub cCloseC (cCreate ++ (name ++ cParenSp)) = false := by
  cases hs : isSub cCloseC (cCreate ++ (name ++ cParenSp))
  · rfl
  · exfalso
    have hs' : isSub ('*' :: ['/']) (cCreate ++ (name ++ cParenSp)) = true := hs
    have hmem := isSub_head_mem hs'
    rcases List.mem_append.mp hmem with hm | hm
    · exact absurd hm (by decide)
    · rcases List.mem_append.mp hm with hm | hm
      · exact absurd ((h '*' hm).1) (by decide)
      · exact absurd hm (by decide)

theorem create_ne_end (name : Str) :
    cCreate ++ (name ++ cParenSp) ≠ cEndTable := by
  intro h
  have h1 : (cCreate ++ (name ++ cParenSp)).head? = some 'c' := rfl
  rw [h] at h1
  exact absurd h1 (by decide)

theorem searchCreate_create (name : Str) (h1 : name ≠ [])
    (h2 : ∀ c ∈ name, isWordChar c = true) :
    searchCreate (cCreate ++ (name ++ cParenSp)) = some name := by
  have htake : ((name ++ cParenSp).takeWhile isWordChar) = name :=
    takeWhile_append_stop isWordChar name ' ' ['('] h2 (by decide)
  have htry : tryCreate (cCreate ++ (name ++ cParenSp)) = some name := by
    unfold tryCreate
    rw [if_pos (pfxB_append_self cCreate (name ++ cParenSp))]
    dsimp only
    rw [List.drop_left, htake, List.drop_left]
    rw [if_pos ⟨h1, pfxB_refl cParenSp⟩]
  have hshape : cCreate ++ (name ++ cParenSp) =
      'c' :: (cCreate.tail ++ (name ++ cParenSp)) := rfl
  have htry' : tryCreate ('c' :: (cCreate.tail ++ (name ++ cParenSp))) =
      some name := by rw [← hshape]; exact htry
  rw [hshape]
  simp [searchCreate, htry']

theorem parseLines_comment_body : ∀ (body : List Str),
    (∀ l ∈ body, commentBodyOK l = true) →
    ∀ (rest : List Str) (inT : Bool) (cur : Str)
      (sch : List (Str × List Str)),
      parseLines (body ++ rest) true inT cur sch =
        parseLines rest true inT cur sch
  | [], _ => fun _ _ _ _ => rfl
  | l :: body, h => by
    intro rest inT cur sch
    have hOK : isSub cCloseC (procLine l) = false := by
      have h2 := h l (by simp)
      simpa [commentBodyOK] using h2
    show parseLines (l :: (body ++ rest)) true inT cur sch = _
    simp only [parseLines]
    by_cases hop : isSub cOpenC (procLine l) = true
    · rw [if_pos hop]
      exact parseLines_comment_body body (fun l' hl' => h l' (by simp [hl']))
        rest inT cur sch
    · rw [if_neg hop, if_neg (by rw [hOK]; simp), if_pos trivial]
      exact parseLines_comment_body body (fun l' hl' => h l' (by simp [hl']))
        rest inT cur sch

theorem parseLines_comment_block (body : List Str)
    (h : ∀ l ∈ body, commentBodyOK l = true) (rest : List Str)
    (inC inT : Bool) (cur : Str) (sch : List (Str × List Str)) :
    parseLines ((cOpenC :: (body ++ [cCloseC])) ++ rest) inC inT cur sch =
      parseLines rest false inT cur sch := by
  show parseLines (cOpenC :: ((body ++ [cCloseC]) ++ rest)) inC inT cur sch = _
  simp only [parseLines]
  rw [if_pos (by decide : isSub cOpenC (procLine cOpenC) = true)]
  rw [List.append_assoc, List.singleton_append]
  rw [parseLines_comment_body body h (cCloseC :: rest) inT cur sch]
  simp only [parseLines]
  rw [if_neg (by decide), if_pos (by decide)]

/-- The `table_schema.append` pass over a whole token list. -/
def appendCols (sch : List (Str × List Str)) (k : Str) (toks : List Str) :
    List (Str × List Str) :=
  toks.foldl (fun s tok => appendColA s k tok) sch

theorem parseLines_items : ∀ (items : List TableItem),
    (∀ it ∈ items, itemOK it = true) →
    ∀ (rest : List Str) (cur : Str) (sch : List (Str × List Str)),
      parseLines (items.flatMap renderItem ++ rest) false true cur sch =
        parseLines rest false true cur
          (appendCols sch cur (items.flatMap itemCols))
  | [], _ => fun _ _ _ => rfl
  | (.col l) :: items, h => by
    intro rest cur sch
    have hcol := h (.col l) (by simp)
    simp only [itemOK, colLineOK, Bool.and_eq_true, Bool.not_eq_true',
      decide_eq_true_eq, Option.isSome_iff_exists] at hcol
    obtain ⟨⟨⟨⟨hno, hnc⟩, hne⟩, hncr⟩, tok, htok⟩ := hcol
    show parseLines (l :: (items.flatMap renderItem ++ rest)) false true cur
      sch = _
    simp only [parseLines]
    rw [if_neg (by rw [hno]; simp), if_neg (by rw [hnc]; simp),
      if_neg (by simp), if_neg (of_decide_eq_false hne),
      if_neg (by rw [hncr]; simp), if_pos trivial, htok]
    show parseLines (items.flatMap renderItem ++ rest) false true cur
      (appendColA sch cur tok) = _
    rw [parseLines_items items (fun it hit => h it (by simp [hit])) rest cur
      (appendColA sch cur tok)]
    have hic : itemCols (.col l) = [tok] := by simp [itemCols, htok]
    rw [show ((TableItem.col l) :: items).flatMap itemCols =
      tok :: items.flatMap itemCols from by simp [hic]]
    rfl
  | (.comm body) :: items, h => by
    intro rest cur sch
    have hcomm := h (.comm body) (by simp)
    simp only [itemOK, List.all_eq_true] at hcomm
    simp only [List.flatMap_cons, renderItem, List.append_assoc]
    rw [parseLines_comment_block body hcomm _ false true cur sch]
    rw [parseLines_items items (fun it hit => h it (by simp [hit])) rest cur
      sch]
    simp [itemCols]

theorem appendColA_fresh {k : Str} {v : List Str} {tok : Str} :
    ∀ (acc : List (Str × List Str)), (∀ p ∈ acc, p.1 ≠ k) →
      appendColA (acc ++ [(k, v)]) k tok = acc ++ [(k, v ++ [tok])]
  | [], _ => by simp [appendColA]
  | (k0, v0) :: acc, h => by
    simp only [List.cons_append, appendColA, List.append_eq]
    rw [if_neg (h (k0, v0) (by simp))]
    rw [appendColA_fresh acc (fun p hp => h p (by simp [hp]))]

theorem appendCols_fresh {k : Str} :
    ∀ (toks : List Str) (acc : List (Str × List Str)) (v : List Str),
      (∀ p ∈ acc, p.1 ≠ k) →
      appendCols (acc ++ [(k, v)]) k toks = acc ++ [(k, v ++ toks)]
  | [], acc, v, _ => by simp [appendCols]
  | tok :: toks, acc, v, h => by
    show appendCols (appendColA (acc ++ [(k, v)]) k tok) k toks = _
    rw [appendColA_fresh acc h]
    rw [appendCols_fresh toks acc (v ++ [tok]) h]
    simp

theorem parseLines_table (name : Str) (items : List TableItem)
    (hb : blockOK (.table name items) = true) (rest : List Str) (cur : Str)
    (sch : List (Str × List Str)) (hfresh : ∀ p ∈ sch, p.1 ≠ name) :
    parseLines (renderBlock (.table name items) ++ rest) false false cur sch =
      parseLines rest false false name
        (sch ++ [(name, items.flatMap itemCols)]) := by
  simp only [blockOK, Bool.and_eq_true, List.all_eq_true] at hb
  obtain ⟨hn, hitems⟩ := hb
  obtain ⟨hn1, hn2⟩ := nameOK_props hn
  show parseLines ((cCreate ++ (name ++ cParenSp)) ::
    ((items.flatMap renderItem ++ [cEndTable]) ++ rest)) false false cur sch
    = _
  simp only [parseLines]
  rw [procLine_create name hn2]
  rw [if_neg (by rw [no_slash_create name hn2]; simp),
    if_neg (by rw [no_star_create name hn2]; simp),
    if_neg (by simp),
    if_neg (create_ne_end name),
    if_pos (pfxB_append_self cCreate (name ++ cParenSp))]
  rw [searchCreate_create name hn1 (fun c hc => (hn2 c hc).1)]
  show parseLines (items.flatMap renderItem ++ [cEndTable] ++ rest) false
    true name (insertOrReplace sch name []) = _
  rw [insertOrReplace_append sch name [] hfresh]
  rw [List.append_assoc, List.singleton_append]
  rw [parseLines_items items hitems (cEndTable :: rest) name
    (sch ++ [(name, [])])]
  simp only [parseLines]
  rw [if_neg (by decide), if_neg (by decide), if_neg (by simp),
    if_pos (by decide : procLine cEndTable = cEndTable)]
  rw [appendCols_fresh _ sch [] hfresh]
  rfl

theorem ddlTables_length : ∀ (blocks : List DDLBlock),
    (ddlTables blocks).length = numTables blocks
  | [] => rfl
  | (.comment body) :: blocks => by
    have ih := ddlTables_length blocks
    simp only [ddlTables, List.flatMap_cons, blockTables, List.nil_append,
      numTables, List.countP_cons] at ih ⊢
    simpa using ih
  | (.table name items) :: blocks => by
    have ih := ddlTables_length blocks
    simp only [ddlTables, List.flatMap_cons, blockTables,
      List.singleton_append, numTables, List.countP_cons, List.length_cons]
      at ih ⊢
    simpa using ih

theorem parseLines_blocks : ∀ (blocks : List DDLBlock),
    (∀ b ∈ blocks, blockOK b = true) →
    ((ddlTables blocks).map Prod.fst).Nodup →
    ∀ (cur : Str) (sch : List (Str × List Str)),
      (∀ p ∈ sch, ∀ q ∈ ddlTables blocks, p.1 ≠ q.1) →
      parseLines (renderDDL blocks) false false cur sch =
        .ok (sch ++ ddlTables blocks)
  | [], _, _ => by
    intro cur sch _
    simp [renderDDL, parseLines, ddlTables]
  | (.comment body) :: blocks, hok, hnd => by
    intro cur sch hfresh
    simp only [renderDDL, List.flatMap_cons, renderBlock]
    rw [parseLines_comment_block body
      (by simpa [blockOK] using hok _ (List.mem_cons_self _ _)) _ false false
      cur sch]
    have hnd' : ((ddlTables blocks).map Prod.fst).Nodup := by
      simpa [ddlTables] using hnd
    have hrec := parseLines_blocks blocks (fun b hb => hok b (by simp [hb]))
      hnd' cur sch
      (fun p hp q hq => hfresh p hp q (by
        simp only [ddlTables, List.flatMap_cons, blockTables,
          List.nil_append]
        exact hq))
    simpa [renderDDL, ddlTables] using hrec
  | (.table name items) :: blocks, hok, hnd => by
    intro cur sch hfresh
    simp only [renderDDL, List.flatMap_cons]
    have hb := hok _ (List.mem_cons_self _ _)
    have hfr : ∀ p ∈ sch, p.1 ≠ name := fun p hp =>
      hfresh p hp (name, items.flatMap itemCols)
        (by simp [ddlTables, blockTables])
    rw [parseLines_table name items hb _ cur sch hfr]
    have hnd1 : ((name, items.flatMap itemCols).1 ::
        (ddlTables blocks).map Prod.fst).Nodup := by
      simpa [ddlTables, blockTables] using hnd
    have hnd2 : ((ddlTables blocks).map Prod.fst).Nodup :=
      (List.nodup_cons.mp hnd1).2
    have hfr2 : ∀ p ∈ sch ++ [(name, items.flatMap itemCols)],
        ∀ q ∈ ddlTables blocks, p.1 ≠ q.1 := by
      intro p hp q hq
      rcases List.mem_append.mp hp with hp | hp
      · exact hfresh p hp q (by
          simp only [ddlTables, List.flatMap_cons, blockTables,
            List.singleton_append]
          exact List.mem_cons_of_mem _ hq)
      · have hp' : p = (name, items.flatMap itemCols) := by simpa using hp
        rw [hp']
        intro he
        have hqm : q.1 ∈ (ddlTables blocks).map Prod.fst :=
          List.mem_map.mpr ⟨q, hq, rfl⟩
        rw [← he] at hqm
        exact (List.nodup_cons.mp hnd1).1 hqm
    have hrec := parseLines_blocks blocks (fun b hb' => hok b (by simp [hb']))
      hnd2 name (sch ++ [(name, items.flatMap itemCols)]) hfr2
    rw [show renderDDL blocks = blocks.flatMap renderBlock from rfl] at hrec
    rw [hrec]
    simp [ddlTables, blockTables, List.append_assoc]

/-- C9: for a well-formed DDL text consisting of block comments and
`create table` blocks (whose interiors may themselves contain block
comments) with pairwise-distinct table names, `parse_schema` succeeds and
returns exactly one entry per `create table` block, in source order, each
column list holding the first whitespace-delimited token of each column
line, with every line inside `/* ... */` comments excluded. -/
theorem c9_parse_schema (blocks : List DDLBlock)
    (hok : ∀ b ∈ blocks, blockOK b = true)
    (hnd : ((ddlTables blocks).map Prod.fst).Nodup) :
    parse_schema (renderDDL blocks) = .ok (ddlTables blocks) ∧
    (ddlTables blocks).length = numTables blocks := by
  constructor
  · unfold parse_schema
    have h0 := parseLines_blocks blocks hok hnd [] [] (by simp)
    simpa using h0
  · exact ddlTables_length blocks

theorem c9_witness :
    (∀ b ∈ ([DDLBlock.comment [(r"hello world").data],
        DDLBlock.table (r"person").data
          [TableItem.col (r"p_personid bigint,").data,
           TableItem.comm [(r"renamed in v2").data],
           TableItem.col (r"p_name varchar").data],
        DDLBlock.table (r"forum").data
          [TableItem.col (r"f_forumid bigint").data]] : List DDLBlock),
      blockOK b = true) ∧
    ((ddlTables [DDLBlock.comment [(r"hello world").data],
        DDLBlock.table (r"person").data
          [TableItem.col (r"p_personid bigint,").data,
           TableItem.comm [(r"renamed in v2").data],
           TableItem.col (r"p_name varchar").data],
        DDLBlock.table (r"forum").data
          [TableItem.col (r"f_forumid bigint").data]]).map Prod.fst).Nodup ∧
    ddlTables [DDLBlock.comment [(r"hello world").data],
        DDLBlock.table (r"person").data
          [TableItem.col (r"p_personid bigint,").data,
           TableItem.comm [(r"renamed in v2").data],
           TableItem.col (r"p_name varchar").data],
        DDLBlock.table (r"forum").data
          [TableItem.col (r"f_forumid bigint").data]] =
      [((r"person").data, [(r"p_personid").data, (r"p_name").data]),
       ((r"forum").data, [(r"f_forumid").data])] ∧
    (parse_schema (renderDDL [DDLBlock.comment [(r"hello world").data],
        DDLBlock.table (r"person").data
          [TableItem.col (r"p_personid bigint,").data,
           TableItem.comm [(r"renamed in v2").data],
           TableItem.col (r"p_name varchar").data],
        DDLBlock.table (r"forum").data
          [TableItem.col (r"f_forumid bigint").data]]) =
      .ok (ddlTables [DDLBlock.comment [(r"hello world").data],
        DDLBlock.table (r"person").data
          [TableItem.col (r"p_personid bigint,").data,
           TableItem.comm [(r"renamed in v2").data],
           TableItem.col (r"p_name varchar").data],
        DDLBlock.table (r"forum").data
          [TableItem.col (r"f_forumid bigint").data]]) ∧
     (ddlTables [DDLBlock.comment [(r"hello world").data],
        DDLBlock.table (r"person").data
          [TableItem.col (r"p_personid bigint,").data,
           TableItem.comm [(r"renamed in v2").data],
           TableItem.col (r"p_name varchar").data],
        DDLBlock.table (r"forum").data
          [TableItem.col (r"f_forumid bigint").data]]).length =
      numTables [DDLBlock.comment [(r"hello world").data],
        DDLBlock.table (r"person").data
          [TableItem.col (r"p_personid bigint,").data,
           TableItem.comm [(r"renamed in v2").data],
           TableItem.col (r"p_name varchar").data],
        DDLBlock.table (r"forum").data
          [TableItem.col (r"f_forumid bigint").data]]) :=
  ⟨by decide, by decide, rfl, c9_parse_schema _ (by decide) (by decide)⟩
